import Mathlib

/-!
Shallow embedding of `src/leftist_tree.cc` (a leftist-heap priority queue)
and proofs of its specification properties.

The C++ `Node` struct stores an `int key`, an `int npl` (null path length),
and owning pointers `left`, `right`.  Null pointers are modelled by the
`leaf` constructor.  Keys and stored npl values are modelled as `Int`
(the code only compares and adds 1; no overflow is reachable for the
tree heights involved, so mathematical integers are a faithful model of
the comparisons the code performs).
-/

/-- `struct Node` from the source: `key`, `npl`, `left`, `right`.
`leaf` stands for the null pointer. -/
inductive Node where
  | leaf : Node
  | node (key : Int) (npl : Int) (left : Node) (right : Node) : Node
deriving DecidableEq, Repr

namespace LeftistTree

/-- `LeftistTree::getNPL`: returns `-1` for a null pointer, else the stored
`npl` field. -/
def getNPL : Node → Int
  | .leaf => -1
  | .node _ n _ _ => n

/-- Number of nodes in a tree (used as the termination measure of `merge`
and to state the count postconditions). -/
def size : Node → Nat
  | .leaf => 0
  | .node _ _ l r => size l + size r + 1

/-- Multiset of keys stored in a tree. -/
def keys : Node → Multiset Int
  | .leaf => 0
  | .node k _ l r => k ::ₘ (keys l + keys r)

/-- The post-recursion fix-up of `LeftistTree::merge` (source lines 54–58):
after the recursive call returned `m` as the candidate right child of the
root `k` with left child `l`, swap the children if `getNPL(left) <
getNPL(right)` (`swapChildren`), then set `npl = getNPL(right) + 1`. -/
def fixUp (k : Int) (l m : Node) : Node :=
  if getNPL l < getNPL m then
    Node.node k (getNPL l + 1) m l
  else
    Node.node k (getNPL m + 1) l m

/-- `LeftistTree::merge`: if either input is null return the other;
otherwise swap the operands when `h1->key > h2->key`, recursively merge
the (possibly swapped) first operand's right subtree with the other tree,
and apply the swap/npl fix-up. -/
def merge : Node → Node → Node
  | .leaf, h2 => h2
  | .node k1 n1 l1 r1, .leaf => .node k1 n1 l1 r1
  | .node k1 n1 l1 r1, .node k2 n2 l2 r2 =>
    if k1 > k2 then
      fixUp k2 l2 (merge r2 (.node k1 n1 l1 r1))
    else
      fixUp k1 l1 (merge r1 (.node k2 n2 l2 r2))
termination_by h1 h2 => size h1 + size h2
decreasing_by
  · simp [size]; omega
  · simp [size]; omega

theorem size_fixUp (k : Int) (l m : Node) :
    size (fixUp k l m) = size l + size m + 1 := by
  unfold fixUp
  split
  all_goals simp [size]
  all_goals omega

theorem size_merge (h1 h2 : Node) :
    size (merge h1 h2) = size h1 + size h2 := by
  induction h1, h2 using merge.induct with
  | case1 h2 => simp [merge, size]
  | case2 k1 n1 l1 r1 => simp [merge, size]
  | case3 k1 n1 l1 r1 k2 n2 l2 r2 hgt ih =>
    rw [merge]
    simp only [if_pos hgt, size_fixUp, size, ih]
    omega
  | case4 k1 n1 l1 r1 k2 n2 l2 r2 hgt ih =>
    rw [merge]
    simp only [if_neg hgt, size_fixUp, size, ih]
    omega

theorem keys_fixUp (k : Int) (l m : Node) :
    keys (fixUp k l m) = k ::ₘ (keys l + keys m) := by
  unfold fixUp
  split <;> simp [keys, add_comm]

theorem keys_merge (h1 h2 : Node) :
    keys (merge h1 h2) = keys h1 + keys h2 := by
  induction h1, h2 using merge.induct with
  | case1 h2 => simp [merge, keys]
  | case2 k1 n1 l1 r1 => simp [merge, keys]
  | case3 k1 n1 l1 r1 k2 n2 l2 r2 hgt ih =>
    rw [merge]
    simp only [if_pos hgt, keys_fixUp, ih, keys, ← Multiset.singleton_add]
    abel
  | case4 k1 n1 l1 r1 k2 n2 l2 r2 hgt ih =>
    rw [merge]
    simp only [if_neg hgt, keys_fixUp, ih, keys, ← Multiset.singleton_add]
    abel

/-- `true` iff the key at the root of `t` (if any) is `≥ k`; an absent
tree imposes no constraint.  Used to phrase the heap-order invariant. -/
def rootLE (k : Int) : Node → Bool
  | .leaf => true
  | .node k2 _ _ _ => decide (k ≤ k2)

/-- Heap-order invariant: every node's key is `≤` the keys of its present
children (spec §3: "for every node with a present child, node.key ≤
child.key"). -/
def heapOrdered : Node → Bool
  | .leaf => true
  | .node k _ l r => rootLE k l && rootLE k r && heapOrdered l && heapOrdered r

/-- Leftist invariant as maintained by the code, phrased on the *stored*
`npl` fields (accessed through `getNPL`, with `-1` for an absent child):
at every node, `getNPL right ≤ getNPL left` and `npl = getNPL right + 1`. -/
def leftistOK : Node → Bool
  | .leaf => true
  | .node _ n l r =>
      decide (getNPL r ≤ getNPL l) && decide (n = getNPL r + 1) &&
      leftistOK l && leftistOK r

/-- The mathematical null path length of a tree: `-1` for an absent tree,
else one more than the minimum of the children's null path lengths (length
of the shortest path to a position with no child). -/
def realNPL : Node → Int
  | .leaf => -1
  | .node _ _ l r => min (realNPL l) (realNPL r) + 1

/-- Leftist invariant phrased on the *mathematical* null path length:
at every node, `realNPL left ≥ realNPL right` and the stored `npl` field
equals `realNPL right + 1`. -/
def leftistReal : Node → Bool
  | .leaf => true
  | .node _ n l r =>
      decide (realNPL r ≤ realNPL l) && decide (n = realNPL r + 1) &&
      leftistReal l && leftistReal r

/-- Length of the right spine: the number of nodes on the path from the
root following right children. -/
def rightSpine : Node → Nat
  | .leaf => 0
  | .node _ _ _ r => rightSpine r + 1

end LeftistTree

/-- `class LeftistTree`: a handle to at most one root node (`root ==
nullptr` is the empty heap, modelled by `Node.leaf`). -/
structure LeftistTree where
  root : Node
deriving DecidableEq, Repr

namespace LeftistTree

/-- The freshly constructed heap: `root(nullptr)`. -/
def empty : LeftistTree := ⟨.leaf⟩

/-- `LeftistTree::isEmpty`: `root == nullptr`. -/
def isEmpty (t : LeftistTree) : Bool :=
  match t.root with
  | .leaf => true
  | .node _ _ _ _ => false

/-- `LeftistTree::insert`: allocate `Node(key)` — which has `npl = 0` and
no children — and replace the root by `merge(root, newNode)`. -/
def insert (t : LeftistTree) (key : Int) : LeftistTree :=
  ⟨merge t.root (Node.node key 0 .leaf .leaf)⟩

/-- `LeftistTree::getMin`: throws `runtime_error("Heap is empty!")` on an
empty heap, else returns the root key.  The method is `const`, so it is
modelled as a pure function of the heap. -/
def getMin (t : LeftistTree) : Except String Int :=
  match t.root with
  | .leaf => .error "Heap is empty!"
  | .node k _ _ _ => .ok k

/-- `LeftistTree::extractMin`: throws on an empty heap (leaving the heap
untouched, which the returned second component records), else returns the
root key and replaces the tree by `merge(root->left, root->right)`. -/
def extractMin (t : LeftistTree) : Except String Int × LeftistTree :=
  match t.root with
  | .leaf => (.error "Heap is empty! Cannot extract min.", t)
  | .node k _ l r => (.ok k, ⟨merge l r⟩)

/-- `LeftistTree::mergeWith` acts on two heap *handles*; to model the
pointer-identity guard `this == &otherTree` the program state is a store
of heaps indexed by addresses (`Nat`).  `mergeWith s i j` is the state
after `s[i].mergeWith(s[j])`: unchanged when `i = j`, otherwise heap `i`
becomes the merge of both trees and heap `j` becomes empty. -/
def mergeWith (s : Nat → LeftistTree) (i j : Nat) : Nat → LeftistTree :=
  if i = j then s
  else fun a =>
    if a = i then ⟨merge (s i).root (s j).root⟩
    else if a = j then ⟨Node.leaf⟩
    else s a

theorem rootLE_trans {b k : Int} (hbk : b ≤ k) :
    ∀ t : Node, rootLE k t = true → rootLE b t = true := by
  intro t
  cases t with
  | leaf => simp [rootLE]
  | node k2 n l r => simp [rootLE]; omega

theorem rootLE_fixUp (b k : Int) (l m : Node) :
    rootLE b (fixUp k l m) = decide (b ≤ k) := by
  unfold fixUp
  split <;> simp [rootLE]

theorem rootLE_merge {b : Int} :
    ∀ h1 h2 : Node, rootLE b h1 = true → rootLE b h2 = true →
      rootLE b (merge h1 h2) = true := by
  intro h1 h2 ha hb
  cases h1 with
  | leaf => rw [merge]; exact hb
  | node k1 n1 l1 r1 =>
    cases h2 with
    | leaf => rw [merge]; exact ha
    | node k2 n2 l2 r2 =>
      rw [merge]
      split
      · rw [rootLE_fixUp]; simpa [rootLE] using hb
      · rw [rootLE_fixUp]; simpa [rootLE] using ha

theorem heapOrdered_fixUp {k : Int} {l m : Node}
    (hl : heapOrdered l = true) (hm : heapOrdered m = true)
    (hkl : rootLE k l = true) (hkm : rootLE k m = true) :
    heapOrdered (fixUp k l m) = true := by
  unfold fixUp
  split <;> simp [heapOrdered, hl, hm, hkl, hkm]

theorem heapOrdered_merge :
    ∀ h1 h2 : Node, heapOrdered h1 = true → heapOrdered h2 = true →
      heapOrdered (merge h1 h2) = true := by
  intro h1 h2
  induction h1, h2 using merge.induct with
  | case1 h2 => intro _ hb; rw [merge]; exact hb
  | case2 k1 n1 l1 r1 => intro ha _; rw [merge]; exact ha
  | case3 k1 n1 l1 r1 k2 n2 l2 r2 hgt ih =>
    intro ha hb
    simp only [heapOrdered, Bool.and_eq_true] at hb
    rw [merge, if_pos hgt]
    refine heapOrdered_fixUp hb.1.2 (ih hb.2 ha) hb.1.1.1 ?_
    refine rootLE_merge _ _ hb.1.1.2 ?_
    simp only [rootLE, decide_eq_true_eq]
    omega
  | case4 k1 n1 l1 r1 k2 n2 l2 r2 hgt ih =>
    intro ha hb
    simp only [heapOrdered, Bool.and_eq_true] at ha
    rw [merge, if_neg hgt]
    refine heapOrdered_fixUp ha.1.2 (ih ha.2 hb) ha.1.1.1 ?_
    refine rootLE_merge _ _ ha.1.1.2 ?_
    simp only [rootLE, decide_eq_true_eq]
    omega

theorem leftistOK_fixUp {l m : Node} (k : Int)
    (hl : leftistOK l = true) (hm : leftistOK m = true) :
    leftistOK (fixUp k l m) = true := by
  unfold fixUp
  split
  all_goals simp [leftistOK, hl, hm]
  all_goals omega

theorem leftistOK_merge :
    ∀ h1 h2 : Node, leftistOK h1 = true → leftistOK h2 = true →
      leftistOK (merge h1 h2) = true := by
  intro h1 h2
  induction h1, h2 using merge.induct with
  | case1 h2 => intro _ hb; rw [merge]; exact hb
  | case2 k1 n1 l1 r1 => intro ha _; rw [merge]; exact ha
  | case3 k1 n1 l1 r1 k2 n2 l2 r2 hgt ih =>
    intro ha hb
    simp only [leftistOK, Bool.and_eq_true] at hb
    rw [merge, if_pos hgt]
    exact leftistOK_fixUp k2 hb.1.2 (ih hb.2 ha)
  | case4 k1 n1 l1 r1 k2 n2 l2 r2 hgt ih =>
    intro ha hb
    simp only [leftistOK, Bool.and_eq_true] at ha
    rw [merge, if_neg hgt]
    exact leftistOK_fixUp k1 ha.1.2 (ih ha.2 hb)

theorem getNPL_eq_realNPL :
    ∀ t : Node, leftistOK t = true → getNPL t = realNPL t := by
  intro t
  induction t with
  | leaf => intro _; simp [getNPL, realNPL]
  | node k n l r ihl ihr =>
    intro h
    simp only [leftistOK, Bool.and_eq_true, decide_eq_true_eq] at h
    simp only [getNPL, realNPL]
    rw [← ihl h.1.2, ← ihr h.2]
    omega

theorem leftistReal_of_leftistOK :
    ∀ t : Node, leftistOK t = true → leftistReal t = true := by
  intro t
  induction t with
  | leaf => intro _; rfl
  | node k n l r ihl ihr =>
    intro h
    simp only [leftistOK, Bool.and_eq_true, decide_eq_true_eq] at h
    simp only [leftistReal, Bool.and_eq_true, decide_eq_true_eq]
    rw [← getNPL_eq_realNPL l h.1.2, ← getNPL_eq_realNPL r h.2]
    exact ⟨⟨⟨h.1.1.1, h.1.1.2⟩, ihl h.1.2⟩, ihr h.2⟩

theorem keys_lb {b : Int} :
    ∀ t : Node, heapOrdered t = true → rootLE b t = true →
      ∀ x ∈ keys t, b ≤ x := by
  intro t
  induction t with
  | leaf => intro _ _ x hx; simp [keys] at hx
  | node k n l r ihl ihr =>
    intro ho hb x hx
    simp only [heapOrdered, Bool.and_eq_true] at ho
    simp only [rootLE, decide_eq_true_eq] at hb
    simp only [keys, Multiset.mem_cons, Multiset.mem_add] at hx
    rcases hx with rfl | hx | hx
    · exact hb
    · exact ihl ho.1.2 (rootLE_trans hb l ho.1.1.1) x hx
    · exact ihr ho.2 (rootLE_trans hb r ho.1.1.2) x hx

/-- Repeatedly extract the minimum until the heap is empty, collecting the
keys in extraction order (each step removes the root `k` and continues on
`merge l r`, exactly as `extractMin` does). -/
def drain (t : Node) : List Int :=
  match t with
  | .leaf => []
  | .node k _ l r => k :: drain (merge l r)
termination_by size t
decreasing_by simp [size_merge, size]

theorem drain_keys :
    ∀ t : Node, (drain t : Multiset Int) = keys t := by
  intro t
  induction t using drain.induct with
  | case1 => rw [drain]; rfl
  | case2 k n l r ih =>
    rw [drain]
    show k ::ₘ (drain (merge l r) : Multiset Int) = keys (Node.node k n l r)
    rw [ih, keys_merge]
    rfl

theorem drain_sorted :
    ∀ t : Node, heapOrdered t = true → List.Sorted (· ≤ ·) (drain t) := by
  intro t
  induction t using drain.induct with
  | case1 => intro _; rw [drain]; exact List.sorted_nil
  | case2 k n l r ih =>
    intro ho
    simp only [heapOrdered, Bool.and_eq_true] at ho
    rw [drain]
    refine List.sorted_cons.mpr ⟨?_, ih (heapOrdered_merge l r ho.1.2 ho.2)⟩
    intro b hb
    have hbk : b ∈ keys (merge l r) := by
      rw [← drain_keys (merge l r)]
      exact Multiset.mem_coe.mpr hb
    rw [keys_merge] at hbk
    rcases Multiset.mem_add.mp hbk with h | h
    · exact keys_lb l ho.1.2 ho.1.1.1 b h
    · exact keys_lb r ho.2 ho.1.1.2 b h

theorem singleton_WF (k : Int) :
    heapOrdered (Node.node k 0 .leaf .leaf) = true ∧
    leftistOK (Node.node k 0 .leaf .leaf) = true := by
  constructor
  · simp [heapOrdered, rootLE]
  · simp [leftistOK, getNPL]

theorem insert_WF (t : LeftistTree) (k : Int)
    (ho : heapOrdered t.root = true) (hl : leftistOK t.root = true) :
    heapOrdered (t.insert k).root = true ∧ leftistOK (t.insert k).root = true :=
  ⟨heapOrdered_merge _ _ ho (singleton_WF k).1,
   leftistOK_merge _ _ hl (singleton_WF k).2⟩

theorem keys_insert (t : LeftistTree) (k : Int) :
    keys (t.insert k).root = k ::ₘ keys t.root := by
  show keys (merge t.root (Node.node k 0 .leaf .leaf)) = k ::ₘ keys t.root
  rw [keys_merge]
  have hs : keys (Node.node k 0 .leaf .leaf) = {k} := rfl
  rw [hs, add_comm, Multiset.singleton_add]

theorem foldl_insert_WF (S : List Int) :
    ∀ t : LeftistTree, heapOrdered t.root = true → leftistOK t.root = true →
      heapOrdered (S.foldl insert t).root = true ∧
      leftistOK (S.foldl insert t).root = true := by
  induction S with
  | nil => intro t ho hl; exact ⟨ho, hl⟩
  | cons a S ih =>
    intro t ho hl
    simp only [List.foldl_cons]
    have h := insert_WF t a ho hl
    exact ih _ h.1 h.2

theorem foldl_insert_keys (S : List Int) :
    ∀ t : LeftistTree, keys ((S.foldl insert t).root) = keys t.root + ↑S := by
  induction S with
  | nil => intro t; simp
  | cons a S ih =>
    intro t
    simp only [List.foldl_cons]
    rw [ih, keys_insert]
    simp only [← Multiset.cons_coe, ← Multiset.singleton_add]
    abel

/-- Fuel-indexed variant of `merge`: each unit of fuel pays for one
recursive step of the source algorithm, and running out of fuel yields
`none`.  Used to state the recursion-depth bound of the merge. -/
def mergeFuel : Nat → Node → Node → Option Node
  | _, .leaf, h2 => some h2
  | _, .node k1 n1 l1 r1, .leaf => some (.node k1 n1 l1 r1)
  | 0, .node _ _ _ _, .node _ _ _ _ => none
  | f+1, .node k1 n1 l1 r1, .node k2 n2 l2 r2 =>
    if k1 > k2 then
      Option.map (fixUp k2 l2) (mergeFuel f r2 (.node k1 n1 l1 r1))
    else
      Option.map (fixUp k1 l1) (mergeFuel f r1 (.node k2 n2 l2 r2))

/-- Heaps reachable from a freshly constructed (empty) heap by any
sequence of the public operations.  `extract` covers `extractMin` (on an
empty heap the state is returned unchanged); `mergeW` gives the receiver
of a `mergeWith` between two distinct heaps (the donor becomes `empty`,
which is reachable by `empty`); a self-`mergeWith` leaves its argument
unchanged, so it adds no new states. -/
inductive Reachable : LeftistTree → Prop where
  | empty : Reachable empty
  | insert {t : LeftistTree} (k : Int) : Reachable t → Reachable (t.insert k)
  | extract {t : LeftistTree} : Reachable t → Reachable (t.extractMin).2
  | mergeW {t u : LeftistTree} : Reachable t → Reachable u →
      Reachable ⟨merge t.root u.root⟩

theorem reachable_WF {t : LeftistTree} (h : Reachable t) :
    heapOrdered t.root = true ∧ leftistOK t.root = true := by
  induction h with
  | empty => exact ⟨rfl, rfl⟩
  | insert k _ ih => exact insert_WF _ k ih.1 ih.2
  | extract _ ih =>
    rename_i t _
    match ht : t.root with
    | .leaf => simpa [extractMin, ht] using ih
    | .node k n l r =>
      simp only [extractMin, ht]
      simp only [heapOrdered, leftistOK, Bool.and_eq_true, ht] at ih
      exact ⟨heapOrdered_merge l r ih.1.1.2 ih.1.2,
             leftistOK_merge l r ih.2.1.2 ih.2.2⟩
  | mergeW _ _ ih1 ih2 =>
    exact ⟨heapOrdered_merge _ _ ih1.1 ih2.1,
           leftistOK_merge _ _ ih1.2 ih2.2⟩

/-- `drain` is exactly the "repeatedly call `extractMin` until `isEmpty`"
loop: it stops on an empty heap, and each successful `extractMin` step
contributes its returned key followed by draining the remaining heap. -/
theorem drain_extractMin (t : LeftistTree) :
    (isEmpty t = true → drain t.root = []) ∧
    ∀ (k : Int) (t' : LeftistTree),
      extractMin t = (.ok k, t') → drain t.root = k :: drain t'.root := by
  constructor
  · intro h
    cases ht : t.root with
    | leaf => rw [drain]
    | node k n l r => simp [isEmpty, ht] at h
  · intro k t' h
    cases ht : t.root with
    | leaf => simp [extractMin, ht] at h
    | node k' n l r =>
      simp only [extractMin, ht, Prod.mk.injEq, Except.ok.injEq] at h
      rw [drain, h.1, ← h.2]

/-- A concrete two-heap store used to instantiate the `mergeWith` claims:
address `0` holds a singleton heap with key `4`, address `1` a singleton
heap with key `9`, all other addresses the empty heap. -/
def storeAB : Nat → LeftistTree := fun a =>
  if a = 0 then ⟨Node.node 4 0 .leaf .leaf⟩
  else if a = 1 then ⟨Node.node 9 0 .leaf .leaf⟩
  else empty

end LeftistTree

open LeftistTree

/-- C1: for every finite multiset of keys, given as a list `S` in an
arbitrary order, inserting all its elements into an initially empty heap
via `insert` and then repeatedly extracting the minimum until the heap is
empty yields exactly the elements of `S` (as a multiset) in non-decreasing
key order. -/
theorem C1_sorted_extraction (S : List Int) :
    List.Sorted (· ≤ ·) (drain ((S.foldl insert empty).root)) ∧
    (drain ((S.foldl insert empty).root) : Multiset Int) = (S : Multiset Int) := by
  have hWF := foldl_insert_WF S empty rfl rfl
  refine ⟨drain_sorted _ hWF.1, ?_⟩
  rw [drain_keys, foldl_insert_keys]
  rfl

/-- C2: merging two leftist-heap-ordered trees (either possibly empty)
yields a single leftist-heap-ordered tree whose key multiset is exactly
the multiset union of the two inputs' key multisets — duplicates all
preserved, no element lost. -/
theorem C2_merge_spec (h1 h2 : Node)
    (ho1 : heapOrdered h1 = true) (hl1 : leftistOK h1 = true)
    (ho2 : heapOrdered h2 = true) (hl2 : leftistOK h2 = true) :
    heapOrdered (merge h1 h2) = true ∧ leftistOK (merge h1 h2) = true ∧
    keys (merge h1 h2) = keys h1 + keys h2 :=
  ⟨heapOrdered_merge h1 h2 ho1 ho2, leftistOK_merge h1 h2 hl1 hl2,
   keys_merge h1 h2⟩

theorem C2_merge_spec_witness :
    (heapOrdered (Node.node 2 0 (Node.node 7 0 .leaf .leaf) .leaf) = true ∧
     leftistOK (Node.node 2 0 (Node.node 7 0 .leaf .leaf) .leaf) = true ∧
     heapOrdered (Node.node 1 0 .leaf .leaf) = true ∧
     leftistOK (Node.node 1 0 .leaf .leaf) = true) ∧
    (heapOrdered (merge (Node.node 2 0 (Node.node 7 0 .leaf .leaf) .leaf)
        (Node.node 1 0 .leaf .leaf)) = true ∧
     leftistOK (merge (Node.node 2 0 (Node.node 7 0 .leaf .leaf) .leaf)
        (Node.node 1 0 .leaf .leaf)) = true ∧
     keys (merge (Node.node 2 0 (Node.node 7 0 .leaf .leaf) .leaf)
        (Node.node 1 0 .leaf .leaf)) =
       keys (Node.node 2 0 (Node.node 7 0 .leaf .leaf) .leaf) +
       keys (Node.node 1 0 .leaf .leaf)) :=
  ⟨by decide,
   C2_merge_spec _ _ (by decide) (by decide) (by decide) (by decide)⟩

/-- C3: every heap reachable from the empty heap by any sequence of
`insert`, `extractMin` and `mergeWith` operations is heap-ordered (every
node's key ≤ its present children's keys), and at every node the
mathematical null path lengths satisfy `NPL(left) ≥ NPL(right)` while the
stored `npl` field equals `NPL(right) + 1` (an absent child having NPL
`-1`). -/
theorem C3_reachable_invariants {t : LeftistTree} (h : Reachable t) :
    heapOrdered t.root = true ∧ leftistReal t.root = true :=
  ⟨(reachable_WF h).1, leftistReal_of_leftistOK _ (reachable_WF h).2⟩

theorem C3_reachable_invariants_witness :
    Reachable (LeftistTree.insert (LeftistTree.insert (LeftistTree.insert empty 10) 5) 20) ∧
    (heapOrdered (LeftistTree.insert (LeftistTree.insert (LeftistTree.insert empty 10) 5) 20).root = true ∧
     leftistReal (LeftistTree.insert (LeftistTree.insert (LeftistTree.insert empty 10) 5) 20).root = true) :=
  ⟨Reachable.insert 20 (Reachable.insert 5 (Reachable.insert 10 Reachable.empty)),
   C3_reachable_invariants
     (Reachable.insert 20 (Reachable.insert 5 (Reachable.insert 10 Reachable.empty)))⟩

/-- C4: on a non-empty heap-ordered heap, `extractMin` returns the root
key, which is the global minimum among all keys present before the call;
the remaining heap holds the old multiset minus one occurrence of that
key, so the element count drops by exactly one. -/
theorem C4_extractMin_spec (t : LeftistTree) (k n : Int) (l r : Node)
    (ho : heapOrdered t.root = true) (ht : t.root = Node.node k n l r) :
    (t.extractMin).1 = .ok k ∧
    (∀ x ∈ keys t.root, k ≤ x) ∧
    keys t.root = k ::ₘ keys ((t.extractMin).2).root ∧
    size ((t.extractMin).2).root + 1 = size t.root := by
  refine ⟨by simp [extractMin, ht], ?_, ?_, ?_⟩
  · intro x hx
    refine keys_lb t.root ho ?_ x hx
    rw [ht]
    simp [rootLE]
  · simp only [extractMin, ht, keys_merge, keys]
  · simp only [extractMin, ht, size_merge, size]

theorem C4_extractMin_spec_witness :
    (heapOrdered (LeftistTree.mk
        (Node.node 3 0 (Node.node 5 0 .leaf .leaf) .leaf)).root = true ∧
     (LeftistTree.mk (Node.node 3 0 (Node.node 5 0 .leaf .leaf) .leaf)).root =
       Node.node 3 0 (Node.node 5 0 .leaf .leaf) .leaf) ∧
    (((LeftistTree.mk
        (Node.node 3 0 (Node.node 5 0 .leaf .leaf) .leaf)).extractMin).1 =
        .ok 3 ∧
     (∀ x ∈ keys (LeftistTree.mk
        (Node.node 3 0 (Node.node 5 0 .leaf .leaf) .leaf)).root, 3 ≤ x) ∧
     keys (LeftistTree.mk
        (Node.node 3 0 (Node.node 5 0 .leaf .leaf) .leaf)).root =
       3 ::ₘ keys (((LeftistTree.mk
        (Node.node 3 0 (Node.node 5 0 .leaf .leaf) .leaf)).extractMin).2).root ∧
     size (((LeftistTree.mk
        (Node.node 3 0 (Node.node 5 0 .leaf .leaf) .leaf)).extractMin).2).root + 1 =
       size (LeftistTree.mk
        (Node.node 3 0 (Node.node 5 0 .leaf .leaf) .leaf)).root) :=
  ⟨⟨by decide, rfl⟩,
   C4_extractMin_spec _ 3 0 _ _ (by decide) rfl⟩

/-- C5: `getMin` and `extractMin` on the empty heap fail with their
respective observable EmptyHeap errors (`Except.error`, not a sentinel
value), and in the failure case the heap is left empty and unmodified
(`extractMin` returns the untouched state; `getMin` is `const` and is a
pure function of the heap); on a non-empty heap `getMin` returns the root
key without mutating the heap. -/
theorem C5_empty_heap_errors :
    getMin empty = .error "Heap is empty!" ∧
    extractMin empty = (.error "Heap is empty! Cannot extract min.", empty) ∧
    isEmpty (extractMin empty).2 = true ∧
    ∀ (k npl : Int) (l r : Node),
      getMin ⟨Node.node k npl l r⟩ = .ok k := by
  exact ⟨rfl, rfl, rfl, fun k npl l r => rfl⟩

/-- C6: `mergeWith` on two distinct heap handles leaves the receiver with
the multiset union of both heaps — its element count is the sum of the two
previous counts — and leaves the other handle as a valid, usable empty
heap. -/
theorem C6_mergeWith_distinct (s : Nat → LeftistTree) (i j : Nat)
    (hij : i ≠ j) :
    keys ((mergeWith s i j) i).root = keys (s i).root + keys (s j).root ∧
    size ((mergeWith s i j) i).root = size (s i).root + size (s j).root ∧
    (mergeWith s i j) j = empty := by
  refine ⟨?_, ?_, ?_⟩ <;>
    simp [mergeWith, hij, Ne.symm hij, keys_merge, size_merge, empty]

theorem C6_mergeWith_distinct_witness :
    (0 : Nat) ≠ 1 ∧
    (keys ((mergeWith storeAB 0 1) 0).root =
       keys (storeAB 0).root + keys (storeAB 1).root ∧
     size ((mergeWith storeAB 0 1) 0).root =
       size (storeAB 0).root + size (storeAB 1).root ∧
     (mergeWith storeAB 0 1) 1 = empty) :=
  ⟨by decide, C6_mergeWith_distinct storeAB 0 1 (by decide)⟩

/-- C7: merging a heap with itself is a no-op: the identity of the two
handles is detected before any merging, the whole store is left unchanged,
and in particular the heap's contents and extraction order are exactly
what they were before the call. -/
theorem C7_mergeWith_self (s : Nat → LeftistTree) (i : Nat) :
    mergeWith s i i = s ∧
    drain ((mergeWith s i i) i).root = drain ((s i).root) := by
  have h : mergeWith s i i = s := by simp [mergeWith]
  exact ⟨h, by rw [h]⟩

/-- C8: `insert` never fails (it is a total function), adds exactly one
new element with the given key to the heap's multiset (count + 1), and is
implemented as merging the current tree with a fresh singleton node
carrying the key and npl `0`. -/
theorem C8_insert_spec (t : LeftistTree) (k : Int) :
    insert t k = ⟨merge t.root (Node.node k 0 .leaf .leaf)⟩ ∧
    keys (insert t k).root = k ::ₘ keys t.root ∧
    size (insert t k).root = size t.root + 1 := by
  refine ⟨rfl, keys_insert t k, ?_⟩
  show size (merge t.root (Node.node k 0 .leaf .leaf)) = size t.root + 1
  rw [size_merge]
  rfl

/-- C9: `merge` terminates on every pair of finite trees, and its
recursion depth is bounded by the sum of the two inputs' right-spine
lengths: with that much fuel, the fuel-indexed merge never runs out and
computes exactly the total function `merge` (which Lean admits by
well-founded recursion). -/
theorem C9_merge_depth_bound :
    ∀ (f : Nat) (h1 h2 : Node), rightSpine h1 + rightSpine h2 ≤ f →
      mergeFuel f h1 h2 = some (merge h1 h2) := by
  intro f
  induction f with
  | zero =>
    intro h1 h2 hf
    cases h1 with
    | leaf => simp [mergeFuel, merge]
    | node k1 n1 l1 r1 =>
      cases h2 with
      | leaf => simp [mergeFuel, merge]
      | node k2 n2 l2 r2 => simp [rightSpine] at hf
  | succ f ih =>
    intro h1 h2 hf
    cases h1 with
    | leaf => simp [mergeFuel, merge]
    | node k1 n1 l1 r1 =>
      cases h2 with
      | leaf => simp [mergeFuel, merge]
      | node k2 n2 l2 r2 =>
        simp only [rightSpine] at hf
        rw [merge, mergeFuel]
        by_cases hk : k1 > k2
        · rw [if_pos hk, if_pos hk,
              ih r2 (Node.node k1 n1 l1 r1) (by simp [rightSpine]; omega)]
          rfl
        · rw [if_neg hk, if_neg hk,
              ih r1 (Node.node k2 n2 l2 r2) (by simp [rightSpine]; omega)]
          rfl

theorem C9_merge_depth_bound_witness :
    rightSpine (Node.node 1 0 .leaf .leaf) +
      rightSpine (Node.node 2 0 .leaf .leaf) ≤ 2 ∧
    mergeFuel 2 (Node.node 1 0 .leaf .leaf) (Node.node 2 0 .leaf .leaf) =
      some (merge (Node.node 1 0 .leaf .leaf) (Node.node 2 0 .leaf .leaf)) :=
  ⟨by decide,
   C9_merge_depth_bound 2 (Node.node 1 0 .leaf .leaf)
     (Node.node 2 0 .leaf .leaf) (by decide)⟩

/-- C10: `merge` is a pure (hence deterministic) function of its two
inputs, and its tie-break is fixed: the operands are swapped only when the
first root's key is strictly greater, so whenever `k1 ≤ k2` — in
particular when the two root keys are equal — the first operand's root
becomes the root of the merged result and the recursion descends into the
first operand's right subtree; the result tree (and with it the extraction
order among duplicate keys) is uniquely determined. -/
theorem C10_merge_tie_break (k1 n1 : Int) (l1 r1 : Node)
    (k2 n2 : Int) (l2 r2 : Node) (hk : k1 ≤ k2) :
    merge (Node.node k1 n1 l1 r1) (Node.node k2 n2 l2 r2) =
      fixUp k1 l1 (merge r1 (Node.node k2 n2 l2 r2)) ∧
    ∃ n l r, merge (Node.node k1 n1 l1 r1) (Node.node k2 n2 l2 r2) =
      Node.node k1 n l r := by
  have h : ¬ k1 > k2 := not_lt.mpr hk
  refine ⟨by rw [merge, if_neg h], ?_⟩
  rw [merge, if_neg h]
  unfold fixUp
  split
  · exact ⟨_, _, _, rfl⟩
  · exact ⟨_, _, _, rfl⟩

theorem C10_merge_tie_break_witness :
    (5 : Int) ≤ 5 ∧
    (merge (Node.node 5 0 .leaf .leaf) (Node.node 5 0 .leaf .leaf) =
      fixUp 5 .leaf (merge .leaf (Node.node 5 0 .leaf .leaf)) ∧
     ∃ n l r, merge (Node.node 5 0 .leaf .leaf) (Node.node 5 0 .leaf .leaf) =
      Node.node 5 n l r) :=
  ⟨by decide, C10_merge_tie_break 5 0 .leaf .leaf 5 0 .leaf .leaf (by decide)⟩
